import Mathlib

/-!
Verification of the constrained combinatorial search engine of the
Combination-app repository (src/components/CombinationApp.tsx and
src/components/workers/combinationWorker.ts).

Numbers are embedded as exact rationals: the source performs decimal
arithmetic (`Number(x.toFixed(6))`, `Math.round`, powers of ten), which ℚ
models exactly.  Mutable worker state (counters, row buffer, emitted
batches) is threaded explicitly through a `WorkerState` record; the
cooperative stop flag is the boolean observed at each of the source's
`stopRequested` checks.
-/

/-- JS `Number(value.toFixed(6))`: round to 6 decimal places, ties toward +∞
(`combinationWorker.ts` line 55, `CombinationApp.tsx` line 75). -/
def roundValue (q : ℚ) : ℚ := (⌊q * 1000000 + 1 / 2⌋ : ℚ) / 1000000

/-- JS `Math.round`: nearest integer, ties toward +∞. -/
def jround (q : ℚ) : ℤ := ⌊q + 1 / 2⌋

/-- `decimalPlaces` (`CombinationApp.tsx` lines 90-95): the number of digits
after the decimal point in the number's decimal representation, i.e. the
least `d` with `q * 10^d` integral (0 if none exists below the search bound,
mirroring the integer / non-decimal `toString` cases). -/
def decimalPlaces (q : ℚ) : ℕ :=
  (((List.range 400).find? (fun d => (q * 10 ^ d).den == 1)).getD 0)

/-- A component row of the configuration table (`CombinationApp.tsx` lines 6-14);
absent numeric fields are `none`. -/
structure ComponentInput where
  id : String
  name : String
  group : String
  min : Option ℚ
  max : Option ℚ
  step : Option ℚ
  fixed : Option ℚ
deriving DecidableEq

/-- The discretization loop of `generateCombinations` (`CombinationApp.tsx`
lines 343-354): scale min/max/step to integers, enumerate, divide back and
round to 6 decimal places. -/
def rawVals (comp : ComponentInput) : List ℚ :=
  let step := comp.step.getD (1 / 10)
  let mn := comp.min.getD 0
  let mx := comp.max.getD 0
  let scale : ℚ := 10 ^ max (decimalPlaces step) (max (decimalPlaces mn) (decimalPlaces mx))
  let start := jround (mn * scale)
  let stopI := jround (mx * scale)
  let stepInt := max 1 (jround (step * scale))
  let n : ℕ := if start ≤ stopI then ((stopI - start) / stepInt).toNat + 1 else 0
  (List.range n).map (fun i => roundValue ((start + i * stepInt : ℤ) / scale))

/-- One entry of the `ranges` array (`CombinationApp.tsx` lines 338-356): a
fixed component contributes the single value `[fixed]`; otherwise the
discretized sequence, falling back to `[roundValue min]` when empty. -/
def buildRange (comp : ComponentInput) : List ℚ :=
  match comp.fixed with
  | some f => [f]
  | none =>
    let vals := rawVals comp
    if vals.isEmpty then [roundValue (comp.min.getD 0)] else vals

/-- `validateInputs` (`CombinationApp.tsx` lines 294-315): returns the first
user-facing error message, or `none` when the request is valid. -/
def validateInputs (minTotal maxTotal : Option ℚ) (components : List ComponentInput) :
    Option String :=
  match minTotal, maxTotal with
  | none, _ => some ("Please fill in the total mass bounds before generating.")
  | _, none => some ("Please fill in the total mass bounds before generating.")
  | some mn, some mx =>
    if mx < mn then some ("Minimum total must be less than or equal to maximum total.")
    else
      components.findSome? (fun comp =>
        if comp.min = none ∨ comp.max = none ∨ comp.step = none then
          some ("Please fill in all component min/max/step values before generating.")
        else if comp.step.getD 0 ≤ 0 then
          some ("Step must be greater than 0 for all components.")
        else none)

/-- The guard of `generateCombinations` (`CombinationApp.tsx` lines 327-356):
validation runs first and on failure the handler returns before any lattice
is built (or worker spawned); on success the per-component ranges are built. -/
def generateRanges (minTotal maxTotal : Option ℚ) (components : List ComponentInput) :
    Except String (List (List ℚ)) :=
  match validateInputs minTotal maxTotal components with
  | some e => .error e
  | none => .ok (components.map buildRange)

/-- Worker-side component payload (`combinationWorker.ts` lines 1-4). -/
structure Component where
  name : String
  group : String
deriving DecidableEq

/-- Per-group aggregate constraints (`combinationWorker.ts` lines 6-13). -/
structure GroupCfg where
  name : String
  minMass : Option ℚ
  maxMass : Option ℚ
  fixedMass : Option ℚ
  minCount : Option ℚ
  maxCount : Option ℚ
deriving DecidableEq

/-- The `start` message payload (`combinationWorker.ts` lines 15-25); the
`groupConfigs` record is an association list keyed by group name. -/
structure StartPayload where
  components : List Component
  groupConfigs : List (String × GroupCfg)
  minTotal : ℚ
  maxTotal : ℚ
  ranges : List (List ℚ)
  firstValues : List ℚ
  epsilon : ℚ
  maxResults : ℕ
  workerId : ℕ
deriving DecidableEq

/-- The worker's mutable run state: counters, the current rows buffer, the
batches already posted via `postResults`, and the `(processed, valid)` pairs
posted via `postProgress`. -/
structure WorkerState where
  processed : ℕ
  valid : ℕ
  stored : ℕ
  rowsBuffer : List (List ℚ)
  batches : List (List (List ℚ))
  progressLog : List (ℕ × ℕ)
deriving DecidableEq

/-- `batchSize` (`combinationWorker.ts` line 88). -/
def batchSize : ℕ := 200

/-- The leaf validity test for one group (`combinationWorker.ts` lines
116-148): every present constraint must hold, mass bounds within `epsilon`,
count bounds exactly. -/
def checkGroup (eps : ℚ) (cfg : GroupCfg) (mass cnt : ℚ) : Bool :=
  (match cfg.fixedMass with | some fm => decide (|mass - fm| ≤ eps) | none => true) &&
  (match cfg.minMass with | some m => decide (m - eps ≤ mass) | none => true) &&
  (match cfg.minCount with | some m => decide (m ≤ cnt) | none => true) &&
  (match cfg.maxMass with | some m => decide (mass ≤ m + eps) | none => true) &&
  (match cfg.maxCount with | some m => decide (cnt ≤ m) | none => true)

/-- The loop over `groupNames` at a leaf (`combinationWorker.ts` lines
115-149): all configured groups pass their checks. -/
def validRow (p : StartPayload) (gm gc : String → ℚ) : Bool :=
  p.groupConfigs.all (fun gcfg => checkGroup p.epsilon gcfg.2 (gm gcfg.1) (gc gcfg.1))

/-- `groupConfigs[group]` lookup; a group absent from the record has no
constraints. -/
def lookupCfg (p : StartPayload) (g : String) : GroupCfg :=
  (p.groupConfigs.lookup g).getD ⟨g, none, none, none, none, none⟩

/-- `gm[group] = (gm[group] || 0) + val` guarded by `val > 0`
(`combinationWorker.ts` lines 172-174). -/
def bumpMass (gm : String → ℚ) (g : String) (v : ℚ) : String → ℚ :=
  if 0 < v then (fun x => if x = g then gm g + v else gm x) else gm

/-- `gc[group] = (gc[group] || 0) + 1` guarded by `val > 0`
(`combinationWorker.ts` lines 172-175). -/
def bumpCnt (gc : String → ℚ) (g : String) (v : ℚ) : String → ℚ :=
  if 0 < v then (fun x => if x = g then gc g + 1 else gc x) else gc

/-- Lines 109-112 of `combinationWorker.ts`: `processed += 1`, and every
5000th evaluation posts a progress message. -/
def progressTick (σ : WorkerState) : WorkerState :=
  let σ := { σ with processed := σ.processed + 1 }
  if σ.processed % 5000 == 0 then
    { σ with progressLog := σ.progressLog ++ [(σ.processed, σ.valid)] } else σ

/-- Lines 152-159 of `combinationWorker.ts`: under the `maxResults` cap the
row is buffered and counted stored, and a full buffer is posted as a batch. -/
def storeRow (p : StartPayload) (cv : List ℚ) (σ : WorkerState) : WorkerState :=
  if σ.stored < p.maxResults then
    let σ := { σ with rowsBuffer := σ.rowsBuffer ++ [cv], stored := σ.stored + 1 }
    if batchSize ≤ σ.rowsBuffer.length then
      { σ with batches := σ.batches ++ [σ.rowsBuffer], rowsBuffer := [] }
    else σ
  else σ

/-- The leaf body of `helper` (`combinationWorker.ts` lines 108-162):
count the evaluation, occasionally post progress, and on acceptance count
it valid and store the row subject to the `maxResults` cap. -/
def leafStep (p : StartPayload) (cv : List ℚ) (gm gc : String → ℚ) (currentSum : ℚ)
    (σ : WorkerState) : WorkerState :=
  let σ := progressTick σ
  if p.minTotal - p.epsilon ≤ currentSum ∧ currentSum ≤ p.maxTotal + p.epsilon then
    if validRow p gm gc then
      storeRow p cv { σ with valid := σ.valid + 1 }
    else σ
  else σ

/-- The `fixedMass` pre-prune (`combinationWorker.ts` lines 177-179): the
updated partial group mass already exceeds `fixedMass + epsilon`. -/
def pruneFixed (p : StartPayload) (g : String) (gm' : String → ℚ) : Bool :=
  match (lookupCfg p g).fixedMass with
  | some fm => decide (fm + p.epsilon < gm' g)
  | none => false

/-- The `maxMass` pre-prune (`combinationWorker.ts` lines 180-182). -/
def pruneMaxMass (p : StartPayload) (g : String) (gm' : String → ℚ) : Bool :=
  match (lookupCfg p g).maxMass with
  | some mm => decide (mm + p.epsilon < gm' g)
  | none => false

/-- The `maxCount` pre-prune (`combinationWorker.ts` lines 183-185). -/
def pruneMaxCount (p : StartPayload) (g : String) (gc' : String → ℚ) : Bool :=
  match (lookupCfg p g).maxCount with
  | some mc => decide (mc < gc' g)
  | none => false

mutual

/-- The recursive enumerator `helper` (`combinationWorker.ts` lines 100-188).
The recursion is over the remaining `(component, range)` dimensions; `stop`
is the value of the `stopRequested` flag observed at each check. -/
def helper (p : StartPayload) (stop : Bool) (rest : List (Component × List ℚ))
    (cv : List ℚ) (gm gc : String → ℚ) (currentSum : ℚ) (σ : WorkerState) : WorkerState :=
  match rest with
  | [] => if stop then σ else leafStep p cv gm gc currentSum σ
  | (comp, range) :: rest' =>
    if stop then σ
    else (helperLoop p stop comp rest' cv gm gc currentSum range (σ, false)).1
termination_by ((rest.length : ℕ), (1 : ℕ), (0 : ℕ))

/-- The `for (const val of ranges[index])` loop of `helper`
(`combinationWorker.ts` lines 166-187); the boolean in the accumulator
records that the loop was exited by the `stopRequested` check. -/
def helperLoop (p : StartPayload) (stop : Bool) (comp : Component)
    (rest' : List (Component × List ℚ)) (cv : List ℚ) (gm gc : String → ℚ)
    (currentSum : ℚ) (vs : List ℚ) (acc : WorkerState × Bool) : WorkerState × Bool :=
  match vs with
  | [] => acc
  | val :: vtl =>
    let acc' :=
      if acc.2 then acc else
      if stop then (acc.1, true) else
      let newSum := roundValue (currentSum + val)
      if p.maxTotal + p.epsilon < newSum then acc else
      let gm' := bumpMass gm comp.group val
      let gc' := bumpCnt gc comp.group val
      if pruneFixed p comp.group gm' then acc else
      if pruneMaxMass p comp.group gm' then acc else
      if pruneMaxCount p comp.group gc' then acc else
      (helper p stop rest' (cv ++ [val]) gm' gc' newSum acc.1, false)
    helperLoop p stop comp rest' cv gm gc currentSum vtl acc'
termination_by ((rest'.length + 1 : ℕ), (0 : ℕ), (vs.length : ℕ))

end

/-- `ranges.slice(1).reduce((acc, arr) => acc * arr.length, 1)`
(`combinationWorker.ts` line 201): the number of leaves under one first
value. -/
def tailProd (p : StartPayload) : ℕ :=
  (p.ranges.drop 1).foldl (fun acc r => acc * r.length) 1

/-- The remaining `(component, range)` dimensions seen by `helper(1, ...)`. -/
def restPairs (p : StartPayload) : List (Component × List ℚ) :=
  (p.components.drop 1).zip (p.ranges.drop 1)

/-- `components[0].group` (`combinationWorker.ts` line 192). -/
def firstGroup (p : StartPayload) : String :=
  (p.components.head?.map (fun c => c.group)).getD ""

/-- `initialMass` after the `firstVal > 0` guard (`combinationWorker.ts`
lines 193-199). -/
def initGM (g : String) (v : ℚ) : String → ℚ :=
  fun x => if x = g ∧ 0 < v then v else 0

/-- `initialCount` after the `firstVal > 0` guard (`combinationWorker.ts`
lines 193-199). -/
def initGC (g : String) (v : ℚ) : String → ℚ :=
  fun x => if x = g ∧ 0 < v then 1 else 0

/-- The top-level loop over `firstValues` (`combinationWorker.ts` lines
190-205): `break` on stop; a first value whose rounded sum already exceeds
`maxTotal + epsilon` credits `processed` with its whole subtree and is
skipped; otherwise recurse from depth 1. -/
def runLoop (p : StartPayload) (stop : Bool) : List ℚ → WorkerState → WorkerState
  | [], σ => σ
  | fv :: rest, σ =>
    if stop then σ else
    let sum := roundValue fv
    if p.maxTotal + p.epsilon < sum then
      runLoop p stop rest { σ with processed := σ.processed + tailProd p }
    else
      runLoop p stop rest
        (helper p stop (restPairs p) [fv] (initGM (firstGroup p) fv)
          (initGC (firstGroup p) fv) sum σ)

/-- `flushRows` (`combinationWorker.ts` lines 92-98): an empty buffer posts
nothing; otherwise the buffered rows are posted as one batch and the buffer
is reset. -/
def flushRows (σ : WorkerState) : WorkerState :=
  if σ.rowsBuffer.isEmpty then σ
  else { σ with batches := σ.batches ++ [σ.rowsBuffer], rowsBuffer := [] }

/-- The epilogue of the `start` handler (`combinationWorker.ts` lines
207-209): a final progress post, the final flush, then `postDone` with the
final counters. -/
def finishRun (σ : WorkerState) : WorkerState :=
  flushRows { σ with progressLog := σ.progressLog ++ [(σ.processed, σ.valid)] }

/-- The whole `start` handler (`combinationWorker.ts` lines 62-209). -/
def runWorker (p : StartPayload) (stop : Bool) : WorkerState :=
  finishRun (runLoop p stop p.firstValues ⟨0, 0, 0, [], [], []⟩)

/-- The rows carried by all `ResultBatch` messages the worker posted, in
posting order. -/
def emittedRows (σ : WorkerState) : List (List ℚ) := σ.batches.flatten

/-- All rows the worker has retained: posted batches plus the current
buffer. -/
def allRows (σ : WorkerState) : List (List ℚ) := σ.batches.flatten ++ σ.rowsBuffer

/-- The final `Done` message `{processed, valid, stored}`
(`combinationWorker.ts` lines 45-51 and 209). -/
def doneMessage (p : StartPayload) (stop : Bool) : ℕ × ℕ × ℕ :=
  ((runWorker p stop).processed, (runWorker p stop).valid, (runWorker p stop).stored)

/-! ### Reference (specification-side) definitions -/

/-- The leaf acceptance condition as a single boolean: total sum within
`[minTotal - epsilon, maxTotal + epsilon]` and every configured group
passes. -/
def leafAccept (p : StartPayload) (gm gc : String → ℚ) (currentSum : ℚ) : Bool :=
  decide (p.minTotal - p.epsilon ≤ currentSum ∧ currentSum ≤ p.maxTotal + p.epsilon) &&
  validRow p gm gc

/-- `leafStep` with the acceptance decision abstracted into a boolean. -/
def leafApply (p : StartPayload) (b : Bool) (cv : List ℚ) (σ : WorkerState) : WorkerState :=
  let σ := progressTick σ
  if b then storeRow p cv { σ with valid := σ.valid + 1 } else σ

/-- Replay a list of leaf evaluations (tuple, accepted?) against a state. -/
def foldLeaves (p : StartPayload) (L : List (List ℚ × Bool)) (σ : WorkerState) : WorkerState :=
  L.foldl (fun σ tb => leafApply p tb.2 tb.1 σ) σ

/-- The leaves `helper` actually evaluates, in search order, each paired
with its acceptance verdict: the same pruning as `helper`, but collecting
tuples instead of mutating state. -/
def leaves (p : StartPayload) :
    List (Component × List ℚ) → List ℚ → (String → ℚ) → (String → ℚ) → ℚ →
    List (List ℚ × Bool)
  | [], cv, gm, gc, currentSum => [(cv, leafAccept p gm gc currentSum)]
  | (comp, range) :: rest, cv, gm, gc, currentSum =>
    range.flatMap (fun val =>
      let newSum := roundValue (currentSum + val)
      if p.maxTotal + p.epsilon < newSum then [] else
      let gm' := bumpMass gm comp.group val
      let gc' := bumpCnt gc comp.group val
      if pruneFixed p comp.group gm' then [] else
      if pruneMaxMass p comp.group gm' then [] else
      if pruneMaxCount p comp.group gc' then [] else
      leaves p rest (cv ++ [val]) gm' gc' newSum)

/-- The cartesian product of the per-dimension lattices, in lexicographic
order (leftmost dimension most significant). -/
def cartesian : List (List ℚ) → List (List ℚ)
  | [] => [[]]
  | r :: rs => r.flatMap (fun v => (cartesian rs).map (fun u => v :: u))

/-- Aggregate mass a tuple contributes to group `g`: only strictly positive
values of components belonging to `g`. -/
def tupMass : List String → List ℚ → String → ℚ
  | g₀ :: gs, v :: vs, g => (if g₀ = g ∧ 0 < v then v else 0) + tupMass gs vs g
  | _, _, _ => 0

/-- Aggregate count a tuple contributes to group `g`: the number of strictly
positive values of components belonging to `g`. -/
def tupCnt : List String → List ℚ → String → ℚ
  | g₀ :: gs, v :: vs, g => (if g₀ = g ∧ 0 < v then 1 else 0) + tupCnt gs vs g
  | _, _, _ => 0

/-- Every rounded running sum of `u`, continued from `s`, stays at most
`maxTotal + epsilon`. -/
def prefixOk (p : StartPayload) : ℚ → List ℚ → Bool
  | _, [] => true
  | s, v :: vs =>
    let s' := roundValue (s + v)
    decide (s' ≤ p.maxTotal + p.epsilon) && prefixOk p s' vs

/-- The rounded running sum of `u` continued from `s` (the worker's
`currentSum` at the leaf). -/
def roundFold (s : ℚ) (u : List ℚ) : ℚ := u.foldl (fun a v => roundValue (a + v)) s

/-- The specification's acceptance predicate for the remaining dimensions
`gs`, relative to already-accumulated aggregates `gm`, `gc` and running sum
`s`. -/
def specFrom (p : StartPayload) (gs : List String) (gm gc : String → ℚ) (s : ℚ)
    (u : List ℚ) : Bool :=
  prefixOk p s u &&
  decide (p.minTotal - p.epsilon ≤ roundFold s u ∧ roundFold s u ≤ p.maxTotal + p.epsilon) &&
  validRow p (fun g => gm g + tupMass gs u g) (fun g => gc g + tupCnt gs u g)

/-- The specification's acceptance predicate for a full tuple: every rounded
prefix sum at most `maxTotal + epsilon`, total within
`[minTotal - epsilon, maxTotal + epsilon]`, and every configured group's
aggregate constraints hold, aggregating only strictly positive values. -/
def specAccept (p : StartPayload) (t : List ℚ) : Bool :=
  specFrom p (p.components.map (fun c => c.group)) (fun _ => 0) (fun _ => 0) 0 t

/-- Every full tuple of the worker's shard, in lexicographic (search)
order: a first value from `firstValues`, then one value per deeper lattice. -/
def allTuples (p : StartPayload) : List (List ℚ) :=
  p.firstValues.flatMap (fun fv => (cartesian (p.ranges.drop 1)).map (fun u => fv :: u))

/-- `ranges[0] ?? []` (`CombinationApp.tsx` line 363). -/
def firstRange (ranges : List (List ℚ)) : List ℚ := ranges.head?.getD []

/-- `Math.ceil(firstRange.length / nextWorkerCount)` (`CombinationApp.tsx`
line 367). -/
def chunkSize (len W : ℕ) : ℕ := (len + W - 1) / W

/-- The shard of worker `i`: `firstRange.slice(i * chunkSize, i * chunkSize
+ chunkSize)` (`CombinationApp.tsx` lines 447-448). -/
def workerSlice (fr : List ℚ) (cs i : ℕ) : List ℚ := (fr.drop (i * cs)).take cs

/-- The accepted tuples among a list of leaf evaluations, in order. -/
def pickAccepted (L : List (List ℚ × Bool)) : List (List ℚ) :=
  L.filterMap (fun tb => if tb.2 then some tb.1 else none)

/-- Consistency of the worker's counters: `stored ≤ valid ≤ processed`, and
the rows retained (posted batches plus buffer) are exactly `stored` many. -/
def countersOk (σ : WorkerState) : Prop :=
  σ.stored ≤ σ.valid ∧ σ.valid ≤ σ.processed ∧ (allRows σ).length = σ.stored

/-- The leaf evaluations of the depth-1 call `helper(1, [firstVal], ...)`
made by the top-level loop for one first value. -/
def fvLeaves (p : StartPayload) (fv : ℚ) : List (List ℚ × Bool) :=
  leaves p (restPairs p) [fv] (initGM (firstGroup p) fv) (initGC (firstGroup p) fv)
    (roundValue fv)

/-- The rows the top-level loop accepts for one first value (none when the
first value is skipped by the sum check). -/
def fvAccepted (p : StartPayload) (fv : ℚ) : List (List ℚ) :=
  if p.maxTotal + p.epsilon < roundValue fv then [] else pickAccepted (fvLeaves p fv)

/-- The number of `processed` leaf evaluations credited to one first value:
the whole subtree when skipped, otherwise the leaves actually evaluated. -/
def fvProcessed (p : StartPayload) (fv : ℚ) : ℕ :=
  if p.maxTotal + p.epsilon < roundValue fv then tailProd p else (fvLeaves p fv).length

/-- A small concrete payload used to exercise the theorems: two components
of group `A`, both ranging over `{0, 0.5, 1}`, total bounded to `[0.99, 1.01]`. -/
def samplePayload : StartPayload :=
  ⟨[⟨"x", "A"⟩, ⟨"y", "A"⟩], [("A", ⟨"A", none, none, none, none, none⟩)],
    99 / 100, 101 / 100, [[0, 1 / 2, 1], [0, 1 / 2, 1]], [0, 1 / 2, 1],
    1 / 1000000, 1000, 0⟩

/-- A payload on which deep pruning occurs: the second dimension's value `5`
exceeds `maxTotal + epsilon` mid-path, so its leaf is never evaluated. -/
def prunedPayload : StartPayload :=
  ⟨[⟨"x", "A"⟩, ⟨"y", "A"⟩], [("A", ⟨"A", none, none, none, none, none⟩)],
    0, 1, [[0], [0, 5]], [0], 1 / 1000000, 1000, 0⟩

/-! ### Basic lemmas -/

lemma helper_nil (p : StartPayload) (stop : Bool) (cv : List ℚ) (gm gc : String → ℚ)
    (s : ℚ) (σ : WorkerState) :
    helper p stop [] cv gm gc s σ = if stop then σ else leafStep p cv gm gc s σ := by
  simp [helper]

lemma helper_stop (p : StartPayload) (rest : List (Component × List ℚ)) (cv : List ℚ)
    (gm gc : String → ℚ) (s : ℚ) (σ : WorkerState) :
    helper p true rest cv gm gc s σ = σ := by
  cases rest with
  | nil => simp [helper]
  | cons hd tl => obtain ⟨c, r⟩ := hd; simp [helper]

lemma runLoop_stop (p : StartPayload) (fvs : List ℚ) (σ : WorkerState) :
    runLoop p true fvs σ = σ := by
  cases fvs with
  | nil => simp [runLoop]
  | cons fv rest => simp [runLoop]

lemma progressTick_fields (σ : WorkerState) :
    (progressTick σ).processed = σ.processed + 1 ∧
    (progressTick σ).valid = σ.valid ∧
    (progressTick σ).stored = σ.stored ∧
    (progressTick σ).rowsBuffer = σ.rowsBuffer ∧
    (progressTick σ).batches = σ.batches := by
  unfold progressTick
  dsimp only
  split <;> simp

lemma storeRow_under_cap (p : StartPayload) (cv : List ℚ) (σ : WorkerState)
    (hc : σ.stored < p.maxResults) :
    (storeRow p cv σ).processed = σ.processed ∧
    (storeRow p cv σ).valid = σ.valid ∧
    (storeRow p cv σ).stored = σ.stored + 1 ∧
    allRows (storeRow p cv σ) = allRows σ ++ [cv] := by
  unfold storeRow allRows
  rw [if_pos hc]
  dsimp only
  split <;> simp

lemma storeRow_at_cap (p : StartPayload) (cv : List ℚ) (σ : WorkerState)
    (hc : ¬σ.stored < p.maxResults) :
    storeRow p cv σ = σ := by
  unfold storeRow
  rw [if_neg hc]

lemma leafStep_eq (p : StartPayload) (cv : List ℚ) (gm gc : String → ℚ) (s : ℚ)
    (σ : WorkerState) :
    leafStep p cv gm gc s σ = leafApply p (leafAccept p gm gc s) cv σ := by
  unfold leafStep leafApply leafAccept
  by_cases hsum : p.minTotal - p.epsilon ≤ s ∧ s ≤ p.maxTotal + p.epsilon
  · by_cases hrow : validRow p gm gc = true
    · have hb : (decide (p.minTotal - p.epsilon ≤ s ∧ s ≤ p.maxTotal + p.epsilon) &&
          validRow p gm gc) = true := by rw [decide_eq_true hsum, hrow]; rfl
      rw [if_pos hsum, if_pos hrow, if_pos hb]
    · have hb : (decide (p.minTotal - p.epsilon ≤ s ∧ s ≤ p.maxTotal + p.epsilon) &&
          validRow p gm gc) = false := by
        rw [Bool.and_eq_false_iff]
        exact Or.inr (Bool.not_eq_true _ ▸ hrow)
      rw [if_pos hsum, if_neg hrow, hb]
      rw [if_neg (by simp : ¬(false = true))]
  · have hb : (decide (p.minTotal - p.epsilon ≤ s ∧ s ≤ p.maxTotal + p.epsilon) &&
        validRow p gm gc) = false := by
      rw [Bool.and_eq_false_iff]
      exact Or.inl (decide_eq_false hsum)
    rw [if_neg hsum, hb]
    rw [if_neg (by simp : ¬(false = true))]

lemma foldLeaves_nil (p : StartPayload) (σ : WorkerState) : foldLeaves p [] σ = σ := rfl

lemma foldLeaves_cons (p : StartPayload) (tb : List ℚ × Bool) (L : List (List ℚ × Bool))
    (σ : WorkerState) :
    foldLeaves p (tb :: L) σ = foldLeaves p L (leafApply p tb.2 tb.1 σ) := rfl

lemma foldLeaves_append (p : StartPayload) (L₁ L₂ : List (List ℚ × Bool)) (σ : WorkerState) :
    foldLeaves p (L₁ ++ L₂) σ = foldLeaves p L₂ (foldLeaves p L₁ σ) := by
  simp [foldLeaves, List.foldl_append]

lemma helper_eq_foldLeaves (p : StartPayload) (rest : List (Component × List ℚ)) :
    ∀ cv gm gc s σ,
      helper p false rest cv gm gc s σ = foldLeaves p (leaves p rest cv gm gc s) σ := by
  induction rest with
  | nil =>
    intro cv gm gc s σ
    simp [helper, leaves, foldLeaves, leafStep_eq]
  | cons hd tl ih =>
    obtain ⟨c, r⟩ := hd
    intro cv gm gc s σ
    have loop : ∀ (vs : List ℚ) (τ : WorkerState),
        helperLoop p false c tl cv gm gc s vs (τ, false) =
          (foldLeaves p (leaves p ((c, vs) :: tl) cv gm gc s) τ, false) := by
      intro vs
      induction vs with
      | nil => intro τ; simp [helperLoop, leaves, foldLeaves]
      | cons v vtl ihv =>
        intro τ
        rw [helperLoop]
        simp only [leaves, List.flatMap_cons, foldLeaves_append]
        by_cases hg : p.maxTotal + p.epsilon < roundValue (s + v)
        · simp only [hg, if_true, if_false, Bool.false_eq_true]
          rw [ihv τ]
          simp [leaves, foldLeaves, if_pos hg]
        · by_cases h1 : pruneFixed p c.group (bumpMass gm c.group v)
          · simp only [hg, h1, if_true, if_false, Bool.false_eq_true]
            rw [ihv τ]
            simp [leaves, foldLeaves, if_neg hg, h1]
          · by_cases h2 : pruneMaxMass p c.group (bumpMass gm c.group v)
            · simp only [hg, h1, h2, if_true, if_false, Bool.false_eq_true]
              rw [ihv τ]
              simp [leaves, foldLeaves, if_neg hg, h1, h2]
            · by_cases h3 : pruneMaxCount p c.group (bumpCnt gc c.group v)
              · simp only [hg, h1, h2, h3, if_true, if_false, Bool.false_eq_true]
                rw [ihv τ]
                simp [leaves, foldLeaves, if_neg hg, h1, h2, h3]
              · simp only [hg, h1, h2, h3, if_false, Bool.false_eq_true]
                rw [ihv]
                rw [ih (cv ++ [v]) (bumpMass gm c.group v) (bumpCnt gc c.group v)
                  (roundValue (s + v)) τ]
                simp [leaves, if_neg hg, h1, h2, h3]
    rw [helper]
    simp only [Bool.false_eq_true, if_false]
    rw [loop r σ]

lemma pickAccepted_nil : pickAccepted [] = [] := rfl

lemma pickAccepted_cons_true (t : List ℚ) (L : List (List ℚ × Bool)) :
    pickAccepted ((t, true) :: L) = t :: pickAccepted L := by
  simp [pickAccepted]

lemma pickAccepted_cons_false (t : List ℚ) (L : List (List ℚ × Bool)) :
    pickAccepted ((t, false) :: L) = pickAccepted L := by
  simp [pickAccepted]

lemma pickAccepted_append (L₁ L₂ : List (List ℚ × Bool)) :
    pickAccepted (L₁ ++ L₂) = pickAccepted L₁ ++ pickAccepted L₂ := by
  simp [pickAccepted, List.filterMap_append]

lemma pickAccepted_flatMap {α : Type} (l : List α) (f : α → List (List ℚ × Bool)) :
    pickAccepted (l.flatMap f) = l.flatMap (fun a => pickAccepted (f a)) := by
  induction l with
  | nil => rfl
  | cons a l ih => simp [List.flatMap_cons, pickAccepted_append, ih]

lemma pickAccepted_length_le (L : List (List ℚ × Bool)) :
    (pickAccepted L).length ≤ L.length :=
  List.length_filterMap_le _ _

lemma allRows_progressTick (σ : WorkerState) : allRows (progressTick σ) = allRows σ := by
  obtain ⟨-, -, -, h4, h5⟩ := progressTick_fields σ
  unfold allRows
  rw [h4, h5]

lemma leafApply_fields (p : StartPayload) (b : Bool) (cv : List ℚ) (σ : WorkerState) :
    (leafApply p b cv σ).processed = σ.processed + 1 ∧
    (leafApply p b cv σ).valid = σ.valid + (if b then 1 else 0) ∧
    (leafApply p b cv σ).stored =
      σ.stored + (if b ∧ σ.stored < p.maxResults then 1 else 0) ∧
    allRows (leafApply p b cv σ) =
      allRows σ ++ (if b ∧ σ.stored < p.maxResults then [cv] else []) := by
  obtain ⟨h1, h2, h3, h4, h5⟩ := progressTick_fields σ
  have hAR : allRows (progressTick σ) = allRows σ := by
    unfold allRows
    rw [h4, h5]
  unfold leafApply
  dsimp only
  cases b with
  | false =>
    simp only [Bool.false_eq_true, if_false, false_and]
    exact ⟨h1, by rw [h2, Nat.add_zero], by rw [h3, Nat.add_zero],
      by rw [hAR, List.append_nil]⟩
  | true =>
    simp only [eq_self_iff_true, if_true, true_and]
    set τ : WorkerState :=
      { progressTick σ with valid := (progressTick σ).valid + 1 } with hτ
    have hτs : τ.stored = σ.stored := h3
    have hτv : τ.valid = σ.valid + 1 := by rw [hτ]; dsimp only; rw [h2]
    have hτp : τ.processed = σ.processed + 1 := h1
    have hτr : allRows τ = allRows σ := by
      unfold allRows at hAR ⊢
      exact hAR
    by_cases hc : σ.stored < p.maxResults
    · obtain ⟨s1, s2, s3, s4⟩ := storeRow_under_cap p cv τ (by rw [hτs]; exact hc)
      refine ⟨by rw [s1, hτp], ?_, ?_, ?_⟩
      · rw [s2, hτv]
      · rw [s3, hτs, if_pos hc]
      · rw [s4, hτr, if_pos hc]
    · rw [storeRow_at_cap p cv τ (by rw [hτs]; exact hc)]
      refine ⟨hτp, hτv, ?_, ?_⟩
      · rw [hτs, if_neg hc, Nat.add_zero]
      · rw [hτr, if_neg hc, List.append_nil]

lemma foldLeaves_spec (p : StartPayload) :
    ∀ (L : List (List ℚ × Bool)) (σ : WorkerState),
      (foldLeaves p L σ).processed = σ.processed + L.length ∧
      (foldLeaves p L σ).valid = σ.valid + (pickAccepted L).length ∧
      (foldLeaves p L σ).stored =
        σ.stored + min (pickAccepted L).length (p.maxResults - σ.stored) ∧
      allRows (foldLeaves p L σ) =
        allRows σ ++ (pickAccepted L).take (p.maxResults - σ.stored) := by
  intro L
  induction L with
  | nil => intro σ; simp [foldLeaves, pickAccepted_nil]
  | cons tb L ih =>
    intro σ
    obtain ⟨t, b⟩ := tb
    rw [foldLeaves_cons]
    dsimp only
    obtain ⟨hp, hv, hs, hr⟩ := ih (leafApply p b t σ)
    obtain ⟨ap, av, as', ar⟩ := leafApply_fields p b t σ
    cases b with
    | false =>
      rw [pickAccepted_cons_false]
      simp only [Bool.false_eq_true, false_and, if_false] at av as' ar
      simp only [av, as', ar, add_zero, List.append_nil] at hv hs hr
      exact ⟨by simp only [List.length_cons]; omega, hv, hs, hr⟩
    | true =>
      rw [pickAccepted_cons_true]
      by_cases hc : σ.stored < p.maxResults
      · rw [if_pos rfl] at av
        rw [if_pos ⟨rfl, hc⟩] at as' ar
        simp only [av, as', ar] at hv hs hr
        refine ⟨by simp only [List.length_cons]; omega,
          by simp only [List.length_cons]; omega, ?_, ?_⟩
        · simp only [List.length_cons]
          omega
        · have hX : p.maxResults - σ.stored = (p.maxResults - (σ.stored + 1)) + 1 := by
            omega
          rw [hr, hX, List.take_succ_cons, List.append_assoc]
          rfl
      · rw [if_pos rfl] at av
        rw [if_neg (fun h => hc h.2)] at as' ar
        simp only [av, as', ar, add_zero, List.append_nil] at hv hs hr
        have h0 : p.maxResults - σ.stored = 0 := by omega
        refine ⟨by simp only [List.length_cons]; omega,
          by simp only [List.length_cons]; omega, ?_, ?_⟩
        · simp only [List.length_cons]
          omega
        · rw [hr, h0]
          simp

lemma tupMass_nonneg (gs : List String) : ∀ (u : List ℚ) (g : String), 0 ≤ tupMass gs u g := by
  induction gs with
  | nil => intro u g; cases u <;> simp [tupMass]
  | cons g₀ gs ih =>
    intro u g
    cases u with
    | nil => simp [tupMass]
    | cons v vs =>
      simp only [tupMass]
      refine add_nonneg ?_ (ih vs g)
      by_cases hx : g₀ = g ∧ 0 < v
      · rw [if_pos hx]; exact le_of_lt hx.2
      · rw [if_neg hx]

lemma tupCnt_nonneg (gs : List String) : ∀ (u : List ℚ) (g : String), 0 ≤ tupCnt gs u g := by
  induction gs with
  | nil => intro u g; cases u <;> simp [tupCnt]
  | cons g₀ gs ih =>
    intro u g
    cases u with
    | nil => simp [tupCnt]
    | cons v vs =>
      simp only [tupCnt]
      refine add_nonneg ?_ (ih vs g)
      by_cases hx : g₀ = g ∧ 0 < v
      · rw [if_pos hx]; norm_num
      · rw [if_neg hx]

lemma bumpMass_add_tupMass (gm : String → ℚ) (g₀ : String) (v : ℚ) (gs : List String)
    (u : List ℚ) (x : String) :
    bumpMass gm g₀ v x + tupMass gs u x = gm x + tupMass (g₀ :: gs) (v :: u) x := by
  simp only [bumpMass, tupMass]
  by_cases hv : 0 < v
  · by_cases hx : x = g₀
    · subst hx
      simp [hv]
      ring
    · have hx' : ¬(g₀ = x) := fun h => hx h.symm
      simp [hv, hx, hx']
  · simp [hv]

lemma bumpCnt_add_tupCnt (gc : String → ℚ) (g₀ : String) (v : ℚ) (gs : List String)
    (u : List ℚ) (x : String) :
    bumpCnt gc g₀ v x + tupCnt gs u x = gc x + tupCnt (g₀ :: gs) (v :: u) x := by
  simp only [bumpCnt, tupCnt]
  by_cases hv : 0 < v
  · by_cases hx : x = g₀
    · subst hx
      simp [hv]
      ring
    · have hx' : ¬(g₀ = x) := fun h => hx h.symm
      simp [hv, hx, hx']
  · simp [hv]

lemma mem_of_lookup_eq_some {l : List (String × GroupCfg)} {g : String} {cfg : GroupCfg}
    (h : l.lookup g = some cfg) : (g, cfg) ∈ l := by
  obtain ⟨l₁, l₂, rfl, -⟩ := List.lookup_eq_some_iff.1 h
  simp

lemma validRow_false_of_pruneFixed (p : StartPayload) (g : String) (gm' gc' : String → ℚ)
    (gs : List String) (u : List ℚ) (h : pruneFixed p g gm' = true) :
    validRow p (fun x => gm' x + tupMass gs u x) (fun x => gc' x + tupCnt gs u x) = false := by
  unfold pruneFixed at h
  rcases hl : p.groupConfigs.lookup g with - | cfg
  · rw [lookupCfg, hl] at h
    simp at h
  · rcases hfm : cfg.fixedMass with - | fm
    · rw [lookupCfg, hl] at h
      simp [hfm] at h
    · have hlt : fm + p.epsilon < gm' g := by
        rw [lookupCfg, hl] at h
        simpa [hfm] using h
      rw [Bool.eq_false_iff]
      intro hall
      unfold validRow at hall
      rw [List.all_eq_true] at hall
      have hg := hall (g, cfg) (mem_of_lookup_eq_some hl)
      unfold checkGroup at hg
      simp only [hfm, Bool.and_eq_true, decide_eq_true_eq] at hg
      have habs := hg.1.1.1.1
      have h0 := tupMass_nonneg gs u g
      have := abs_le.1 habs
      linarith [this.2]

lemma validRow_false_of_pruneMaxMass (p : StartPayload) (g : String) (gm' gc' : String → ℚ)
    (gs : List String) (u : List ℚ) (h : pruneMaxMass p g gm' = true) :
    validRow p (fun x => gm' x + tupMass gs u x) (fun x => gc' x + tupCnt gs u x) = false := by
  unfold pruneMaxMass at h
  rcases hl : p.groupConfigs.lookup g with - | cfg
  · rw [lookupCfg, hl] at h
    simp at h
  · rcases hmm : cfg.maxMass with - | mm
    · rw [lookupCfg, hl] at h
      simp [hmm] at h
    · have hlt : mm + p.epsilon < gm' g := by
        rw [lookupCfg, hl] at h
        simpa [hmm] using h
      rw [Bool.eq_false_iff]
      intro hall
      unfold validRow at hall
      rw [List.all_eq_true] at hall
      have hg := hall (g, cfg) (mem_of_lookup_eq_some hl)
      unfold checkGroup at hg
      simp only [hmm, Bool.and_eq_true, decide_eq_true_eq] at hg
      have habs := hg.1.2
      have h0 := tupMass_nonneg gs u g
      linarith

lemma validRow_false_of_pruneMaxCount (p : StartPayload) (g : String) (gm' gc' : String → ℚ)
    (gs : List String) (u : List ℚ) (h : pruneMaxCount p g gc' = true) :
    validRow p (fun x => gm' x + tupMass gs u x) (fun x => gc' x + tupCnt gs u x) = false := by
  unfold pruneMaxCount at h
  rcases hl : p.groupConfigs.lookup g with - | cfg
  · rw [lookupCfg, hl] at h
    simp at h
  · rcases hmc : cfg.maxCount with - | mc
    · rw [lookupCfg, hl] at h
      simp [hmc] at h
    · have hlt : mc < gc' g := by
        rw [lookupCfg, hl] at h
        simpa [hmc] using h
      rw [Bool.eq_false_iff]
      intro hall
      unfold validRow at hall
      rw [List.all_eq_true] at hall
      have hg := hall (g, cfg) (mem_of_lookup_eq_some hl)
      unfold checkGroup at hg
      simp only [hmc, Bool.and_eq_true, decide_eq_true_eq] at hg
      have habs := hg.2
      have h0 := tupCnt_nonneg gs u g
      linarith

lemma specFrom_validRow_false (p : StartPayload) (gs : List String) (gm gc : String → ℚ)
    (s : ℚ) (u : List ℚ)
    (h : validRow p (fun x => gm x + tupMass gs u x) (fun x => gc x + tupCnt gs u x) = false) :
    specFrom p gs gm gc s u = false := by
  unfold specFrom
  rw [h]
  simp

lemma specFrom_cons (p : StartPayload) (g₀ : String) (gs : List String) (gm gc : String → ℚ)
    (s v : ℚ) (u : List ℚ) :
    specFrom p (g₀ :: gs) gm gc s (v :: u) =
      (decide (roundValue (s + v) ≤ p.maxTotal + p.epsilon) &&
        specFrom p gs (bumpMass gm g₀ v) (bumpCnt gc g₀ v) (roundValue (s + v)) u) := by
  unfold specFrom
  have h1 : prefixOk p s (v :: u) =
      (decide (roundValue (s + v) ≤ p.maxTotal + p.epsilon) &&
        prefixOk p (roundValue (s + v)) u) := by
    simp [prefixOk]
  have h2 : roundFold s (v :: u) = roundFold (roundValue (s + v)) u := rfl
  have h3 : (fun x => gm x + tupMass (g₀ :: gs) (v :: u) x) =
      (fun x => bumpMass gm g₀ v x + tupMass gs u x) := by
    funext x
    rw [bumpMass_add_tupMass]
  have h4 : (fun x => gc x + tupCnt (g₀ :: gs) (v :: u) x) =
      (fun x => bumpCnt gc g₀ v x + tupCnt gs u x) := by
    funext x
    rw [bumpCnt_add_tupCnt]
  rw [h1, h2, h3, h4]
  simp [Bool.and_assoc]

lemma leaves_spec (p : StartPayload) (rest : List (Component × List ℚ)) :
    ∀ cv gm gc s,
      pickAccepted (leaves p rest cv gm gc s) =
        ((cartesian (rest.map (fun cr => cr.2))).filter
          (fun u => specFrom p (rest.map (fun cr => cr.1.group)) gm gc s u)).map
          (fun u => cv ++ u) := by
  induction rest with
  | nil =>
    intro cv gm gc s
    have h3 : (fun x => gm x + tupMass [] [] x) = gm := by
      funext x
      simp [tupMass]
    have h4 : (fun x => gc x + tupCnt [] [] x) = gc := by
      funext x
      simp [tupCnt]
    simp only [leaves, List.map_nil, cartesian]
    rcases hacc : leafAccept p gm gc s with - | -
    · have hsf : specFrom p [] gm gc s [] = false := by
        unfold leafAccept at hacc
        unfold specFrom
        rw [h3, h4]
        simpa [prefixOk, roundFold] using hacc
      simp [pickAccepted, hacc, hsf]
    · have hsf : specFrom p [] gm gc s [] = true := by
        unfold leafAccept at hacc
        unfold specFrom
        rw [h3, h4]
        simpa [prefixOk, roundFold] using hacc
      simp [pickAccepted, hacc, hsf]
  | cons hd tl ih =>
    obtain ⟨c, r⟩ := hd
    intro cv gm gc s
    simp only [leaves, List.map_cons, cartesian]
    rw [pickAccepted_flatMap, List.filter_flatMap, List.map_flatMap]
    congr 1
    funext v
    dsimp only
    rw [List.filter_map, List.map_map]
    simp only [Function.comp_def, specFrom_cons]
    by_cases hg : p.maxTotal + p.epsilon < roundValue (s + v)
    · rw [if_pos hg]
      have hnone : ∀ u ∈ cartesian (tl.map (fun cr => cr.2)),
          (decide (roundValue (s + v) ≤ p.maxTotal + p.epsilon) &&
            specFrom p (tl.map (fun cr => cr.1.group)) (bumpMass gm c.group v)
              (bumpCnt gc c.group v) (roundValue (s + v)) u) = (fun _ => false) u := by
        intro u _
        rw [decide_eq_false (not_le.2 hg), Bool.false_and]
      rw [List.filter_congr hnone]
      simp [pickAccepted]
    · rw [if_neg hg]
      simp only [decide_eq_true (not_lt.1 hg), Bool.true_and]
      by_cases h1 : pruneFixed p c.group (bumpMass gm c.group v)
      · rw [if_pos h1]
        have hnone : ∀ u ∈ cartesian (tl.map (fun cr => cr.2)),
            specFrom p (tl.map (fun cr => cr.1.group)) (bumpMass gm c.group v)
              (bumpCnt gc c.group v) (roundValue (s + v)) u = (fun _ => false) u := by
          intro u _
          exact specFrom_validRow_false p _ _ _ _ u
            (validRow_false_of_pruneFixed p c.group _ _ _ u h1)
        rw [List.filter_congr hnone]
        simp [pickAccepted]
      · rw [if_neg h1]
        by_cases h2 : pruneMaxMass p c.group (bumpMass gm c.group v)
        · rw [if_pos h2]
          have hnone : ∀ u ∈ cartesian (tl.map (fun cr => cr.2)),
              specFrom p (tl.map (fun cr => cr.1.group)) (bumpMass gm c.group v)
                (bumpCnt gc c.group v) (roundValue (s + v)) u = (fun _ => false) u := by
            intro u _
            exact specFrom_validRow_false p _ _ _ _ u
              (validRow_false_of_pruneMaxMass p c.group _ _ _ u h2)
          rw [List.filter_congr hnone]
          simp [pickAccepted]
        · rw [if_neg h2]
          by_cases h3 : pruneMaxCount p c.group (bumpCnt gc c.group v)
          · rw [if_pos h3]
            have hnone : ∀ u ∈ cartesian (tl.map (fun cr => cr.2)),
                specFrom p (tl.map (fun cr => cr.1.group)) (bumpMass gm c.group v)
                  (bumpCnt gc c.group v) (roundValue (s + v)) u = (fun _ => false) u := by
              intro u _
              exact specFrom_validRow_false p _ _ _ _ u
                (validRow_false_of_pruneMaxCount p c.group _ _ _ u h3)
            rw [List.filter_congr hnone]
            simp [pickAccepted]
          · rw [if_neg h3]
            rw [ih (cv ++ [v]) (bumpMass gm c.group v) (bumpCnt gc c.group v)
              (roundValue (s + v))]
            congr 1
            funext u
            simp

lemma runLoop_spec (p : StartPayload) : ∀ (fvs : List ℚ) (σ : WorkerState),
    (runLoop p false fvs σ).processed = σ.processed + (fvs.map (fvProcessed p)).sum ∧
    (runLoop p false fvs σ).valid = σ.valid + (fvs.flatMap (fvAccepted p)).length ∧
    (runLoop p false fvs σ).stored =
      σ.stored + min (fvs.flatMap (fvAccepted p)).length (p.maxResults - σ.stored) ∧
    allRows (runLoop p false fvs σ) =
      allRows σ ++ (fvs.flatMap (fvAccepted p)).take (p.maxResults - σ.stored) := by
  intro fvs
  induction fvs with
  | nil => intro σ; simp [runLoop]
  | cons fv rest ih =>
    intro σ
    simp only [runLoop, Bool.false_eq_true, if_false]
    by_cases hskip : p.maxTotal + p.epsilon < roundValue fv
    · rw [if_pos hskip]
      obtain ⟨ip, iv, is', ir⟩ := ih { σ with processed := σ.processed + tailProd p }
      have hacc : fvAccepted p fv = [] := by rw [fvAccepted, if_pos hskip]
      have hproc : fvProcessed p fv = tailProd p := by rw [fvProcessed, if_pos hskip]
      refine ⟨?_, ?_, ?_, ?_⟩
      · rw [ip]
        simp only [List.map_cons, List.sum_cons, hproc]
        omega
      · rw [iv]
        simp [List.flatMap_cons, hacc]
      · rw [is']
        simp [List.flatMap_cons, hacc, allRows]
      · rw [ir]
        simp [List.flatMap_cons, hacc, allRows]
    · rw [if_neg hskip]
      rw [helper_eq_foldLeaves]
      rw [show leaves p (restPairs p) [fv] (initGM (firstGroup p) fv)
          (initGC (firstGroup p) fv) (roundValue fv) = fvLeaves p fv from rfl]
      obtain ⟨fp, fva, fst, frr⟩ := foldLeaves_spec p (fvLeaves p fv) σ
      obtain ⟨ip, iv, is', ir⟩ := ih (foldLeaves p (fvLeaves p fv) σ)
      have hacc : fvAccepted p fv = pickAccepted (fvLeaves p fv) := by
        rw [fvAccepted, if_neg hskip]
      have hproc : fvProcessed p fv = (fvLeaves p fv).length := by
        rw [fvProcessed, if_neg hskip]
      refine ⟨?_, ?_, ?_, ?_⟩
      · rw [ip, fp]
        simp only [List.map_cons, List.sum_cons, hproc]
        omega
      · rw [iv, fva]
        simp only [List.flatMap_cons, hacc, List.length_append]
        omega
      · rw [is', fst]
        simp only [List.flatMap_cons, hacc, List.length_append]
        omega
      · rw [ir, frr, fst]
        simp only [List.flatMap_cons, hacc]
        rw [List.take_append_eq_append_take, List.append_assoc]
        have hidx : p.maxResults -
            (σ.stored + min (pickAccepted (fvLeaves p fv)).length (p.maxResults - σ.stored)) =
            (p.maxResults - σ.stored) - (pickAccepted (fvLeaves p fv)).length := by
          omega
        rw [hidx]

lemma finishRun_fields (σ : WorkerState) :
    (finishRun σ).processed = σ.processed ∧
    (finishRun σ).valid = σ.valid ∧
    (finishRun σ).stored = σ.stored ∧
    (finishRun σ).rowsBuffer = [] ∧
    emittedRows (finishRun σ) = allRows σ := by
  unfold finishRun flushRows emittedRows allRows
  by_cases hb : σ.rowsBuffer.isEmpty
  · rw [if_pos (by simpa using hb)]
    have : σ.rowsBuffer = [] := by simpa [List.isEmpty_iff] using hb
    simp [this]
  · rw [if_neg (by simpa using hb)]
    simp

/-- Every first value either is skipped by the top-level sum check or
contributes its accepted leaves; under a well-formed payload this equals the
filter of the full tuple space by the specification predicate. -/
lemma fvAccepted_eq (p : StartPayload) (c₀ : Component) (ct : List Component)
    (r₀ : List ℚ) (rt : List (List ℚ)) (hc : p.components = c₀ :: ct)
    (hr : p.ranges = r₀ :: rt) (hlen : ct.length = rt.length) (fv : ℚ) :
    fvAccepted p fv =
      ((cartesian (p.ranges.drop 1)).map (fun u => fv :: u)).filter (specAccept p) := by
  have hrp : restPairs p = ct.zip rt := by
    rw [restPairs, hc, hr]
    rfl
  have hsnd : (restPairs p).map (fun cr => cr.2) = rt := by
    rw [hrp]
    have := List.map_snd_zip ct rt (le_of_eq hlen.symm)
    simpa using this
  have hfst : (restPairs p).map (fun cr => cr.1.group) = ct.map (fun c => c.group) := by
    rw [hrp]
    have h1 : (ct.zip rt).map (fun cr => cr.1.group) =
        ((ct.zip rt).map Prod.fst).map (fun c => c.group) := by
      rw [List.map_map]
      rfl
    rw [h1, List.map_fst_zip ct rt (le_of_eq hlen)]
  have hdrop : p.ranges.drop 1 = rt := by rw [hr]; rfl
  have hfg : firstGroup p = c₀.group := by rw [firstGroup, hc]; rfl
  have hq : ∀ u, specAccept p (fv :: u) =
      (decide (roundValue fv ≤ p.maxTotal + p.epsilon) &&
        specFrom p (ct.map (fun c => c.group)) (initGM c₀.group fv) (initGC c₀.group fv)
          (roundValue fv) u) := by
    intro u
    have h0 : specAccept p (fv :: u) =
        specFrom p (c₀.group :: ct.map (fun c => c.group)) (fun _ => 0) (fun _ => 0) 0
          (fv :: u) := by
      rw [specAccept, hc]
      rfl
    rw [h0, specFrom_cons]
    have hz : roundValue (0 + fv) = roundValue fv := by rw [zero_add]
    have hgm : bumpMass (fun _ => 0) c₀.group fv = initGM c₀.group fv := by
      funext x
      unfold bumpMass initGM
      by_cases hv : 0 < fv
      · by_cases hx : x = c₀.group <;> simp [hv, hx]
      · simp [hv]
    have hgc : bumpCnt (fun _ => 0) c₀.group fv = initGC c₀.group fv := by
      funext x
      unfold bumpCnt initGC
      by_cases hv : 0 < fv
      · by_cases hx : x = c₀.group <;> simp [hv, hx]
      · simp [hv]
    rw [hz, hgm, hgc]
  by_cases hskip : p.maxTotal + p.epsilon < roundValue fv
  · rw [fvAccepted, if_pos hskip]
    have : ∀ u ∈ (cartesian (p.ranges.drop 1)).map (fun u => fv :: u),
        specAccept p u = false := by
      intro u hu
      obtain ⟨w, -, rfl⟩ := List.mem_map.1 hu
      rw [hq w, decide_eq_false (not_le.2 hskip), Bool.false_and]
    rw [List.filter_eq_nil_iff.2 (fun u hu => by rw [this u hu]; exact Bool.false_ne_true)]
  · rw [fvAccepted, if_neg hskip, fvLeaves, hfg, leaves_spec, hsnd, hfst, hdrop,
      List.filter_map]
    have hqq : ∀ u ∈ cartesian rt,
        (specAccept p ∘ fun u => fv :: u) u =
          specFrom p (ct.map (fun c => c.group)) (initGM c₀.group fv) (initGC c₀.group fv)
            (roundValue fv) u := by
      intro u _
      simp only [Function.comp_apply]
      rw [hq u, decide_eq_true (not_lt.1 hskip), Bool.true_and]
    rw [List.filter_congr hqq]
    rfl

/-- Master characterization of a complete (non-stopped) worker run: the
valid count, stored count, emitted rows and final processed count, all in
terms of the specification predicate over the full tuple space. -/
lemma runWorker_char (p : StartPayload) (hne : p.components ≠ [])
    (hlen : p.components.length = p.ranges.length) :
    (runWorker p false).valid = ((allTuples p).filter (specAccept p)).length ∧
    (runWorker p false).stored =
      min ((allTuples p).filter (specAccept p)).length p.maxResults ∧
    emittedRows (runWorker p false) =
      ((allTuples p).filter (specAccept p)).take p.maxResults ∧
    (runWorker p false).rowsBuffer = [] ∧
    (runWorker p false).processed = (p.firstValues.map (fvProcessed p)).sum := by
  obtain ⟨c₀, ct, hc⟩ : ∃ c₀ ct, p.components = c₀ :: ct := by
    cases hcs : p.components with
    | nil => exact absurd hcs hne
    | cons a b => exact ⟨a, b, rfl⟩
  obtain ⟨r₀, rt, hr⟩ : ∃ r₀ rt, p.ranges = r₀ :: rt := by
    cases hrs : p.ranges with
    | nil => rw [hc, hrs] at hlen; simp at hlen
    | cons a b => exact ⟨a, b, rfl⟩
  have hlen' : ct.length = rt.length := by
    rw [hc, hr] at hlen
    simpa using hlen
  have hA : p.firstValues.flatMap (fvAccepted p) = (allTuples p).filter (specAccept p) := by
    have h1 : fvAccepted p = fun fv =>
        ((cartesian (p.ranges.drop 1)).map (fun u => fv :: u)).filter (specAccept p) :=
      funext (fvAccepted_eq p c₀ ct r₀ rt hc hr hlen')
    rw [h1, allTuples, List.filter_flatMap]
  obtain ⟨lp, lv, ls, lr⟩ := runLoop_spec p p.firstValues ⟨0, 0, 0, [], [], []⟩
  obtain ⟨fp, fv', fs, fb, fe⟩ :=
    finishRun_fields (runLoop p false p.firstValues ⟨0, 0, 0, [], [], []⟩)
  have hw : runWorker p false =
      finishRun (runLoop p false p.firstValues ⟨0, 0, 0, [], [], []⟩) := rfl
  rw [hw]
  refine ⟨?_, ?_, ?_, fb, ?_⟩
  · rw [fv', lv, hA]
    simp
  · rw [fs, ls, hA]
    simp
  · rw [fe, lr, hA]
    simp [allRows]
  · rw [fp, lp]
    simp

/-! ### Claim theorems: validation and range building -/

/-- C4: the Range Builder on the component spec `(min = 0, max = 1, step = 0.1)`
with no fixed value produces exactly the eleven exact decimal values
`0, 0.1, ..., 1.0`, with no drift. -/
theorem lattice_zero_one_tenth_exact :
    buildRange ⟨"c1", "Component 1", "A", some 0, some 1, some (1 / 10), none⟩ =
      [0, 1 / 10, 2 / 10, 3 / 10, 4 / 10, 5 / 10, 6 / 10, 7 / 10, 8 / 10, 9 / 10, 1] := by
  with_unfolding_all decide

/-- C9: when a non-fixed component's discretization loop yields no values,
the built range falls back to the single value `roundValue min`; and every
component's built range is nonempty, so no dimension is ever empty. -/
theorem empty_lattice_falls_back_to_min (comp : ComponentInput) :
    (comp.fixed = none → rawVals comp = [] →
      buildRange comp = [roundValue (comp.min.getD 0)]) ∧ buildRange comp ≠ [] := by
  constructor
  · intro hf hr
    simp [buildRange, hf, hr]
  · cases hf : comp.fixed with
    | some f => simp [buildRange, hf]
    | none =>
      by_cases hr : (rawVals comp).isEmpty <;> simp [buildRange, hf, hr]
      simpa [List.isEmpty_iff] using hr

/-- Witness for C9 at the concrete component `(min = 2, max = 1, step = 0.1)`:
its discretization loop is empty and the fallback single value is produced. -/
theorem empty_lattice_falls_back_to_min_witness :
    rawVals ⟨"c9", "C", "A", some 2, some 1, some (1 / 10), none⟩ = [] ∧
    buildRange ⟨"c9", "C", "A", some 2, some 1, some (1 / 10), none⟩ = [roundValue 2] ∧
    buildRange ⟨"c9", "C", "A", some 2, some 1, some (1 / 10), none⟩ ≠ [] := by
  refine ⟨by with_unfolding_all decide, ?_, ?_⟩
  · exact (empty_lattice_falls_back_to_min _).1 rfl (by with_unfolding_all decide)
  · exact (empty_lattice_falls_back_to_min _).2

/-- C8: an invalid request (missing total bound, `minTotal > maxTotal`,
a component with a missing `min`/`max`/`step`, or a non-positive step) makes
`Generate` stop at validation with a single user-facing message: no range is
ever built. -/
theorem invalid_request_rejected_before_spawn (minTotal maxTotal : Option ℚ)
    (comps : List ComponentInput)
    (h : minTotal = none ∨ maxTotal = none ∨
      (∃ mn mx, minTotal = some mn ∧ maxTotal = some mx ∧ mx < mn) ∨
      ∃ c ∈ comps, c.min = none ∨ c.max = none ∨ c.step = none ∨
        ∃ s, c.step = some s ∧ s ≤ 0) :
    ∃ msg, generateRanges minTotal maxTotal comps = .error msg := by
  have hv : validateInputs minTotal maxTotal comps ≠ none := by
    cases hmn : minTotal with
    | none => simp [validateInputs]
    | some mn =>
      cases hmx : maxTotal with
      | none => simp [validateInputs]
      | some mx =>
        rcases h with h | h | ⟨a, b, ha, hb, hab⟩ | ⟨c, hc, hbad⟩
        · exact absurd hmn (h ▸ fun hs => by simp at hs)
        · exact absurd hmx (h ▸ fun hs => by simp at hs)
        · obtain rfl : a = mn := by have := ha.symm.trans hmn; simpa using this
          obtain rfl : b = mx := by have := hb.symm.trans hmx; simpa using this
          simp [validateInputs, hab]
        · simp only [validateInputs]
          by_cases hlt : mx < mn
          · simp [hlt]
          · simp only [hlt, if_false]
            intro hnone
            rw [List.findSome?_eq_none_iff] at hnone
            have hcnone := hnone c hc
            rcases hbad with hb | hb | hb | ⟨s, hs, hsle⟩
            · simp [hb] at hcnone
            · simp [hb] at hcnone
            · simp [hb] at hcnone
            · by_cases hm : c.min = none ∨ c.max = none ∨ c.step = none
              · simp [hm] at hcnone
              · push_neg at hm
                simp [hm.1, hm.2.1, hs, hsle] at hcnone
  cases hval : validateInputs minTotal maxTotal comps with
  | none => exact absurd hval hv
  | some e => exact ⟨e, by simp [generateRanges, hval]⟩

/-- Witness for C8: a request with no minimum total is rejected. -/
theorem invalid_request_rejected_before_spawn_witness :
    ∃ msg, generateRanges none (some 1) [] = .error msg :=
  invalid_request_rejected_before_spawn none (some 1) [] (Or.inl rfl)

/-! ### Claim theorems: the search engine -/

/-- C1: a complete worker run counts a full tuple valid, and emits it subject
to the storage cap, exactly when the tuple satisfies the specification
predicate `specAccept`: every rounded prefix sum at most
`maxTotal + epsilon`, total within `[minTotal - epsilon, maxTotal + epsilon]`,
and every configured group's `fixedMass` / `minMass` / `maxMass` (within
`epsilon`) and `minCount` / `maxCount` (exact) constraints hold over the
strictly positive values of its components; a group with no constraints
always passes.  Stated as: the valid counter equals the number of
specification-accepted tuples, and the emitted rows are exactly the
specification-accepted tuples (in order) truncated at `maxResults`. -/
theorem worker_enumeration_matches_spec (p : StartPayload) (hne : p.components ≠ [])
    (hlen : p.components.length = p.ranges.length) :
    (runWorker p false).valid = ((allTuples p).filter (specAccept p)).length ∧
    emittedRows (runWorker p false) =
      ((allTuples p).filter (specAccept p)).take p.maxResults :=
  ⟨(runWorker_char p hne hlen).1, (runWorker_char p hne hlen).2.2.1⟩

/-- Witness for C1 on `samplePayload`: of the nine tuples exactly
`(0, 1)`, `(0.5, 0.5)` and `(1, 0)` are accepted and emitted. -/
theorem worker_enumeration_matches_spec_witness :
    samplePayload.components ≠ [] ∧
    samplePayload.components.length = samplePayload.ranges.length ∧
    (runWorker samplePayload false).valid = 3 ∧
    emittedRows (runWorker samplePayload false) = [[0, 1], [1 / 2, 1 / 2], [1, 0]] := by
  have h := worker_enumeration_matches_spec samplePayload
    (by with_unfolding_all decide) (by with_unfolding_all decide)
  refine ⟨by with_unfolding_all decide, by with_unfolding_all decide, ?_, ?_⟩
  · rw [h.1]
    with_unfolding_all decide
  · rw [h.2]
    with_unfolding_all decide

/-- C5: within a single worker's output the emitted rows are an
order-preserving subsequence of `allTuples`, the lexicographic enumeration
of the shard (dimension 0 in the `firstValues` order being most
significant), i.e. rows appear strictly in search order. -/
theorem rows_in_lex_order (p : StartPayload) (hne : p.components ≠ [])
    (hlen : p.components.length = p.ranges.length) :
    (emittedRows (runWorker p false)).Sublist (allTuples p) := by
  rw [(runWorker_char p hne hlen).2.2.1]
  exact (List.take_sublist _ _).trans (List.filter_sublist _)

/-- Witness for C5 on `samplePayload`. -/
theorem rows_in_lex_order_witness :
    (emittedRows (runWorker samplePayload false)).Sublist (allTuples samplePayload) :=
  rows_in_lex_order samplePayload (by with_unfolding_all decide)
    (by with_unfolding_all decide)

/-- C6: whenever the stop flag reads true, `helper` returns immediately with
the state unchanged (no new rows are buffered, no batch is posted) and the
top-level loop breaks; the epilogue still posts the final flush (emitting
exactly the rows already buffered, nothing more) and a `Done` message whose
counts are the counts at that moment. -/
theorem stop_unwinds_and_reports_done (p : StartPayload)
    (rest : List (Component × List ℚ)) (cv : List ℚ) (gm gc : String → ℚ) (s : ℚ)
    (σ : WorkerState) (fvs : List ℚ) (τ : WorkerState) :
    helper p true rest cv gm gc s σ = σ ∧
    runLoop p true fvs σ = σ ∧
    (finishRun τ).processed = τ.processed ∧
    (finishRun τ).valid = τ.valid ∧
    (finishRun τ).stored = τ.stored ∧
    emittedRows (finishRun τ) = allRows τ :=
  ⟨helper_stop p rest cv gm gc s σ, runLoop_stop p fvs σ, (finishRun_fields τ).1,
    (finishRun_fields τ).2.1, (finishRun_fields τ).2.2.1, (finishRun_fields τ).2.2.2.2⟩

lemma stored_le_cap (p : StartPayload) (stop : Bool) :
    (runWorker p stop).stored ≤ p.maxResults := by
  have hw : runWorker p stop =
      finishRun (runLoop p stop p.firstValues ⟨0, 0, 0, [], [], []⟩) := rfl
  rw [hw, (finishRun_fields _).2.2.1]
  cases stop with
  | true =>
    rw [runLoop_stop]
    simp
  | false =>
    rw [(runLoop_spec p p.firstValues ⟨0, 0, 0, [], [], []⟩).2.2.1]
    simp

/-- C7: the storage cap.  First, the final `Done.stored` never exceeds
`maxResults` (for any run, stopped or complete).  Second, once `stored` has
reached `maxResults`, a further leaf evaluation retains no row anywhere
(neither buffer nor batches grow) and leaves `stored` unchanged, while an
accepted tuple still increments the valid counter.  Third, on a complete run
`Done.valid` counts every specification-accepted tuple. -/
theorem storage_cap_respected :
    (∀ (p : StartPayload) (stop : Bool), (runWorker p stop).stored ≤ p.maxResults) ∧
    (∀ (p : StartPayload) (cv : List ℚ) (gm gc : String → ℚ) (s : ℚ) (σ : WorkerState),
      p.maxResults ≤ σ.stored →
        (leafStep p cv gm gc s σ).stored = σ.stored ∧
        allRows (leafStep p cv gm gc s σ) = allRows σ ∧
        (leafStep p cv gm gc s σ).valid =
          σ.valid + (if leafAccept p gm gc s then 1 else 0)) ∧
    (∀ (p : StartPayload), p.components ≠ [] → p.components.length = p.ranges.length →
      (runWorker p false).valid = ((allTuples p).filter (specAccept p)).length) := by
  refine ⟨stored_le_cap, ?_, fun p hne hlen => (runWorker_char p hne hlen).1⟩
  intro p cv gm gc s σ hcap
  rw [leafStep_eq]
  obtain ⟨a1, a2, a3, a4⟩ := leafApply_fields p (leafAccept p gm gc s) cv σ
  have hnc : ¬σ.stored < p.maxResults := not_lt.2 hcap
  refine ⟨?_, ?_, a2⟩
  · rw [a3, if_neg (fun h => hnc h.2), Nat.add_zero]
  · rw [a4, if_neg (fun h => hnc h.2), List.append_nil]

/-- Witness for C7: on `samplePayload` with the cap lowered to 1, the final
stored count is within the cap; a leaf evaluated with the cap already
reached keeps `stored` and the retained rows unchanged; and on
`samplePayload` the valid counter counts all three accepted tuples. -/
theorem storage_cap_respected_witness :
    (runWorker { samplePayload with maxResults := 1 } false).stored ≤ 1 ∧
    ((leafStep { samplePayload with maxResults := 1 } [0, 1] (fun _ => 0) (fun _ => 0) 1
        ⟨7, 5, 1, [], [], []⟩).stored = 1 ∧
      allRows (leafStep { samplePayload with maxResults := 1 } [0, 1] (fun _ => 0) (fun _ => 0) 1
        ⟨7, 5, 1, [], [], []⟩) = allRows ⟨7, 5, 1, [], [], []⟩) ∧
    (runWorker samplePayload false).valid = 3 := by
  obtain ⟨h1, h2, h3⟩ := storage_cap_respected
  refine ⟨h1 { samplePayload with maxResults := 1 } false, ?_, ?_⟩
  · have h := h2 { samplePayload with maxResults := 1 } [0, 1] (fun _ => 0) (fun _ => 0) 1
      ⟨7, 5, 1, [], [], []⟩ (by with_unfolding_all decide)
    exact ⟨h.1, h.2.1⟩
  · rw [h3 samplePayload (by with_unfolding_all decide) (by with_unfolding_all decide)]
    with_unfolding_all decide

lemma countersOk_foldLeaves (p : StartPayload) (L : List (List ℚ × Bool)) (σ : WorkerState)
    (h : countersOk σ) : countersOk (foldLeaves p L σ) := by
  obtain ⟨f1, f2, f3, f4⟩ := foldLeaves_spec p L σ
  obtain ⟨h1, h2, h3⟩ := h
  have hAL := pickAccepted_length_le L
  refine ⟨?_, ?_, ?_⟩
  · rw [f2, f3]
    omega
  · rw [f1, f2]
    omega
  · rw [f4, f3, List.length_append, List.length_take, h3]
    omega

lemma fvAccepted_length_le (p : StartPayload) (fv : ℚ) :
    (fvAccepted p fv).length ≤ fvProcessed p fv := by
  unfold fvAccepted fvProcessed
  by_cases h : p.maxTotal + p.epsilon < roundValue fv
  · simp [h]
  · simp only [h, if_false]
    exact pickAccepted_length_le _

lemma allRows_eq_emitted_append (σ : WorkerState) :
    allRows σ = emittedRows σ ++ σ.rowsBuffer := rfl

lemma countersOk_runLoop (p : StartPayload) (stop : Bool) :
    countersOk (runLoop p stop p.firstValues ⟨0, 0, 0, [], [], []⟩) := by
  cases stop with
  | true =>
    rw [runLoop_stop]
    exact ⟨le_refl _, le_refl _, rfl⟩
  | false =>
    obtain ⟨l1, l2, l3, l4⟩ := runLoop_spec p p.firstValues ⟨0, 0, 0, [], [], []⟩
    have hle : (List.map (fun fv => (fvAccepted p fv).length) p.firstValues).sum ≤
        (List.map (fvProcessed p) p.firstValues).sum :=
      List.sum_le_sum (fun fv _ => fvAccepted_length_le p fv)
    have hfl : (p.firstValues.flatMap (fvAccepted p)).length ≤
        (List.map (fvProcessed p) p.firstValues).sum := by
      rw [List.length_flatMap]
      refine le_trans (le_of_eq ?_) hle
      rfl
    have hz1 : (⟨0, 0, 0, [], [], []⟩ : WorkerState).valid = 0 := rfl
    have hz2 : (⟨0, 0, 0, [], [], []⟩ : WorkerState).processed = 0 := rfl
    have hz3 : (⟨0, 0, 0, [], [], []⟩ : WorkerState).stored = 0 := rfl
    have hz4 : allRows (⟨0, 0, 0, [], [], []⟩ : WorkerState) = [] := rfl
    refine ⟨?_, ?_, ?_⟩
    · rw [l3, l2, hz1, hz3, Nat.zero_add, Nat.zero_add, Nat.sub_zero]
      exact min_le_left _ _
    · rw [l2, l1, hz1, hz2, Nat.zero_add, Nat.zero_add]
      exact hfl
    · rw [l4, l3, hz3, hz4, List.nil_append, List.length_take, Nat.zero_add, Nat.sub_zero]
      omega

/-- C10: counter consistency.  `stored ≤ valid ≤ processed` together with
"retained rows = stored" is an invariant of every `helper` call (for either
value of the stop flag), and at the end of any worker run the buffer has
been flushed and the total number of rows across all posted `ResultBatch`
messages equals the final `Done.stored`. -/
theorem counters_consistent :
    (∀ (p : StartPayload) (stop : Bool) (rest : List (Component × List ℚ)) (cv : List ℚ)
      (gm gc : String → ℚ) (s : ℚ) (σ : WorkerState),
      countersOk σ → countersOk (helper p stop rest cv gm gc s σ)) ∧
    (∀ (p : StartPayload) (stop : Bool),
      countersOk (runWorker p stop) ∧ (runWorker p stop).rowsBuffer = [] ∧
      (emittedRows (runWorker p stop)).length = (runWorker p stop).stored) := by
  constructor
  · intro p stop rest cv gm gc s σ h
    cases stop with
    | true => rw [helper_stop]; exact h
    | false =>
      rw [helper_eq_foldLeaves]
      exact countersOk_foldLeaves p _ σ h
  · intro p stop
    have hw : runWorker p stop =
        finishRun (runLoop p stop p.firstValues ⟨0, 0, 0, [], [], []⟩) := rfl
    obtain ⟨p1, p2, p3, p4, p5⟩ :=
      finishRun_fields (runLoop p stop p.firstValues ⟨0, 0, 0, [], [], []⟩)
    obtain ⟨c1, c2, c3⟩ := countersOk_runLoop p stop
    have hlen : (emittedRows (runWorker p stop)).length = (runWorker p stop).stored := by
      rw [hw, p5, p3]
      exact c3
    refine ⟨⟨?_, ?_, ?_⟩, by rw [hw]; exact p4, hlen⟩
    · rw [hw, p3, p2]
      exact c1
    · rw [hw, p2, p1]
      exact c2
    · rw [hw]
      rw [allRows_eq_emitted_append, p4, List.append_nil, p5, p3]
      exact c3

/-- Witness for C10: the invariant holds for a concrete nontrivial state and
is preserved through a concrete `helper` call, and `samplePayload`'s
complete run satisfies the run-level conjunct. -/
theorem counters_consistent_witness :
    countersOk (⟨5, 3, 2, [[0, 1], [1, 0]], [], []⟩ : WorkerState) ∧
    countersOk (helper samplePayload false (restPairs samplePayload) [0]
      (initGM "A" 0) (initGC "A" 0) 0 ⟨5, 3, 2, [[0, 1], [1, 0]], [], []⟩) ∧
    countersOk (runWorker samplePayload false) ∧
    (runWorker samplePayload false).rowsBuffer = [] := by
  have hok : countersOk (⟨5, 3, 2, [[0, 1], [1, 0]], [], []⟩ : WorkerState) := by
    refine ⟨by norm_num, by norm_num, ?_⟩
    simp [allRows]
  refine ⟨hok, ?_, ?_, ?_⟩
  · exact counters_consistent.1 samplePayload false _ _ _ _ _ _ hok
  · exact (counters_consistent.2 samplePayload false).1
  · exact (counters_consistent.2 samplePayload false).2.1

lemma tailProd_eq (p : StartPayload) :
    tailProd p = ((p.ranges.drop 1).map List.length).prod := by
  rw [tailProd, List.prod_eq_foldl, List.foldl_map]

lemma leaves_length_le (p : StartPayload) (rest : List (Component × List ℚ)) :
    ∀ cv gm gc s,
      (leaves p rest cv gm gc s).length ≤ (rest.map (fun cr => cr.2.length)).prod := by
  induction rest with
  | nil => intro cv gm gc s; simp [leaves]
  | cons hd tl ih =>
    obtain ⟨c, r⟩ := hd
    intro cv gm gc s
    simp only [leaves, List.map_cons, List.prod_cons]
    rw [List.length_flatMap]
    refine le_trans (List.sum_le_card_nsmul _ ((tl.map (fun cr => cr.2.length)).prod) ?_) ?_
    · intro x hx
      obtain ⟨v, -, rfl⟩ := List.mem_map.1 hx
      simp only [Function.comp_apply]
      by_cases hg : p.maxTotal + p.epsilon < roundValue (s + v)
      · simp [hg]
      · rw [if_neg hg]
        by_cases h1 : pruneFixed p c.group (bumpMass gm c.group v)
        · simp [h1]
        · rw [if_neg h1]
          by_cases h2 : pruneMaxMass p c.group (bumpMass gm c.group v)
          · simp [h2]
          · rw [if_neg h2]
            by_cases h3 : pruneMaxCount p c.group (bumpCnt gc c.group v)
            · simp [h3]
            · rw [if_neg h3]
              exact ih _ _ _ _
    · rw [List.length_map, smul_eq_mul]

lemma fvProcessed_le (p : StartPayload) (c₀ : Component) (ct : List Component)
    (r₀ : List ℚ) (rt : List (List ℚ)) (hc : p.components = c₀ :: ct)
    (hr : p.ranges = r₀ :: rt) (hlen : ct.length = rt.length) (fv : ℚ) :
    fvProcessed p fv ≤ tailProd p := by
  unfold fvProcessed
  by_cases hskip : p.maxTotal + p.epsilon < roundValue fv
  · rw [if_pos hskip]
  · rw [if_neg hskip]
    have hrp : restPairs p = ct.zip rt := by
      rw [restPairs, hc, hr]
      rfl
    have hsnd : (restPairs p).map (fun cr => cr.2) = rt := by
      rw [hrp]
      have := List.map_snd_zip ct rt (le_of_eq hlen.symm)
      simpa using this
    have hlens : (restPairs p).map (fun cr => cr.2.length) = rt.map List.length := by
      have h1 : (restPairs p).map (fun cr => cr.2.length) =
          ((restPairs p).map (fun cr => cr.2)).map List.length := by
        rw [List.map_map]
        rfl
      rw [h1, hsnd]
    have hdrop : p.ranges.drop 1 = rt := by rw [hr]; rfl
    refine le_trans (leaves_length_le p (restPairs p) _ _ _ _) ?_
    rw [hlens, tailProd_eq, hdrop]

/-- Counterexample to C3 as stated: on `prunedPayload` (one first value,
deeper lattice `[0, 5]`, `maxTotal = 1`) the run completes naturally but the
final `Done.processed` is 1, not `|slice| × ∏ lens(1..) = 2`, because the
branch `5` is pruned by the sum check at depth 1 without its leaf being
counted. -/
theorem processed_count_counterexample :
    (runWorker prunedPayload false).processed = 1 ∧
    prunedPayload.firstValues.length * tailProd prunedPayload = 2 := by
  constructor
  · rw [(runWorker_char prunedPayload (by with_unfolding_all decide)
      (by with_unfolding_all decide)).2.2.2.2]
    with_unfolding_all decide
  · with_unfolding_all decide

/-- C3 (amended): for a worker that runs to natural completion the final
`Done.processed` is the number of leaf evaluations actually performed, where
a first value skipped by the top-level sum check is credited with the full
product of the deeper lattice lengths; hence it is at most (not in general
equal to) the slice length times the product of the lengths of lattices
`1..k-1`, with shortfall exactly the leaves pruned below dimension 0. -/
theorem processed_le_shard_leaves (p : StartPayload) (hne : p.components ≠ [])
    (hlen : p.components.length = p.ranges.length) :
    (runWorker p false).processed = (p.firstValues.map (fvProcessed p)).sum ∧
    (runWorker p false).processed ≤ p.firstValues.length * tailProd p := by
  obtain ⟨c₀, ct, hc⟩ : ∃ c₀ ct, p.components = c₀ :: ct := by
    cases hcs : p.components with
    | nil => exact absurd hcs hne
    | cons a b => exact ⟨a, b, rfl⟩
  obtain ⟨r₀, rt, hr⟩ : ∃ r₀ rt, p.ranges = r₀ :: rt := by
    cases hrs : p.ranges with
    | nil => rw [hc, hrs] at hlen; simp at hlen
    | cons a b => exact ⟨a, b, rfl⟩
  have hlen' : ct.length = rt.length := by
    rw [hc, hr] at hlen
    simpa using hlen
  have hchar := (runWorker_char p hne hlen).2.2.2.2
  refine ⟨hchar, ?_⟩
  rw [hchar]
  refine le_trans (List.sum_le_card_nsmul _ (tailProd p) ?_) ?_
  · intro x hx
    obtain ⟨fv, -, rfl⟩ := List.mem_map.1 hx
    exact fvProcessed_le p c₀ ct r₀ rt hc hr hlen' fv
  · rw [List.length_map, smul_eq_mul]

/-- Witness for the amended C3 on `samplePayload`: sum-pruning below
dimension 0 cuts three of the nine leaves, so `processed` is 6, within the
bound `3 × 3 = 9`. -/
theorem processed_le_shard_leaves_witness :
    (runWorker samplePayload false).processed = 6 ∧
    (runWorker samplePayload false).processed ≤ 9 := by
  have h := processed_le_shard_leaves samplePayload (by with_unfolding_all decide)
    (by with_unfolding_all decide)
  constructor
  · rw [h.1]
    with_unfolding_all decide
  · have h9 : samplePayload.firstValues.length * tailProd samplePayload = 9 := by
      with_unfolding_all decide
    exact h9 ▸ h.2

lemma sublist_flatMap {α β : Type} {l₁ l₂ : List α} (F : α → List β) (h : l₁.Sublist l₂) :
    (l₁.flatMap F).Sublist (l₂.flatMap F) := by
  induction h with
  | slnil => exact List.Sublist.refl _
  | cons a h ih =>
    rw [List.flatMap_cons]
    exact ih.trans (List.sublist_append_right _ _)
  | cons₂ a h ih =>
    rw [List.flatMap_cons, List.flatMap_cons]
    exact ih.append_left _

lemma chunks_join {α : Type} : ∀ (W : ℕ) (cs : ℕ) (l : List α), l.length ≤ W * cs →
    (List.range W).flatMap (fun i => (l.drop (i * cs)).take cs) = l := by
  intro W
  induction W with
  | zero =>
    intro cs l hl
    simp at hl
    simp [hl]
  | succ W ih =>
    intro cs l hl
    rw [List.range_succ_eq_map, List.flatMap_cons, List.flatMap_map]
    have h1 : (fun i => (l.drop (Nat.succ i * cs)).take cs) =
        (fun i => ((l.drop cs).drop (i * cs)).take cs) := by
      funext i
      rw [List.drop_drop]
      have : i * cs + cs = Nat.succ i * cs := (Nat.succ_mul i cs).symm
      rw [Nat.add_comm cs (i * cs), this]
    have h2 : (List.range W).flatMap (fun i => ((l.drop cs).drop (i * cs)).take cs) =
        l.drop cs := by
      refine ih cs (l.drop cs) ?_
      rw [List.length_drop]
      rw [Nat.succ_mul] at hl
      omega
    calc (l.drop (0 * cs)).take cs ++
          (List.range W).flatMap (fun a => (l.drop (Nat.succ a * cs)).take cs)
        = l.take cs ++ (List.range W).flatMap (fun i => ((l.drop cs).drop (i * cs)).take cs) := by
          rw [h1]
          norm_num
      _ = l.take cs ++ l.drop cs := by rw [h2]
      _ = l := List.take_append_drop cs l

lemma ceil_chunk_covers (len W : ℕ) (hW : 1 ≤ W) : len ≤ W * chunkSize len W := by
  have hpos : 0 < W := hW
  have h1 : (len + W - 1) / W < chunkSize len W + 1 := Nat.lt_succ_self _
  have h2 : len + W - 1 < (chunkSize len W + 1) * W := (Nat.div_lt_iff_lt_mul hpos).1 h1
  rw [Nat.succ_mul] at h2
  have h4 : len + W ≤ chunkSize len W * W + W := by
    have h3 : len + W - 1 + 1 ≤ chunkSize len W * W + W := h2
    rwa [Nat.sub_add_cancel (by omega : 1 ≤ len + W)] at h3
  have h5 : len ≤ chunkSize len W * W := Nat.le_of_add_le_add_right h4
  rw [Nat.mul_comm]
  exact h5

lemma prefixOk_update (p : StartPayload) (X : List ℚ) :
    ∀ s u, prefixOk { p with firstValues := X } s u = prefixOk p s u := by
  intro s u
  induction u generalizing s with
  | nil => rfl
  | cons v vs ih => simp [prefixOk, ih]

lemma specAccept_update (p : StartPayload) (X : List ℚ) :
    specAccept { p with firstValues := X } = specAccept p := by
  funext t
  unfold specAccept specFrom
  rw [prefixOk_update]
  rfl

/-- C2: partition completeness.  For any worker count `W` between 1 and the
length of dimension 0's lattice, slicing dimension 0 into contiguous chunks
of size `ceil(len/W)` and running one worker per slice yields, as the
concatenation over workers of their emitted rows, exactly the rows a single
worker emits when given the whole of dimension 0 (so the result sets agree,
order within each worker included).  The cap hypothesis states the shared
`maxResults` budget does not truncate the single-worker result. -/
theorem partition_union_eq_single_worker (p : StartPayload) (W : ℕ) (hW1 : 1 ≤ W)
    (_hW2 : W ≤ (firstRange p.ranges).length) (hne : p.components ≠ [])
    (hlen : p.components.length = p.ranges.length)
    (hcap : ((allTuples { p with firstValues := firstRange p.ranges }).filter
      (specAccept { p with firstValues := firstRange p.ranges })).length ≤ p.maxResults) :
    (List.range W).flatMap (fun i =>
      emittedRows (runWorker { p with firstValues := (workerSlice (firstRange p.ranges)
        (chunkSize (firstRange p.ranges).length W) i) } false)) =
    emittedRows (runWorker { p with firstValues := firstRange p.ranges } false) := by
  have hQ : ∀ X : List ℚ, specAccept { p with firstValues := X } = specAccept p :=
    specAccept_update p
  have hT : ∀ X : List ℚ, allTuples { p with firstValues := X } =
      X.flatMap (fun fv => (cartesian (p.ranges.drop 1)).map (fun u => fv :: u)) :=
    fun X => rfl
  rw [hT, hQ] at hcap
  have hrun : ∀ X : List ℚ,
      emittedRows (runWorker { p with firstValues := X } false) =
        ((X.flatMap (fun fv => (cartesian (p.ranges.drop 1)).map (fun u => fv :: u))).filter
          (specAccept p)).take p.maxResults := by
    intro X
    have h := (runWorker_char { p with firstValues := X } hne hlen).2.2.1
    rw [h, hT X, hQ X]
  have hsub : ∀ i : ℕ,
      (((workerSlice (firstRange p.ranges) (chunkSize (firstRange p.ranges).length W) i).flatMap
        (fun fv => (cartesian (p.ranges.drop 1)).map (fun u => fv :: u))).filter
        (specAccept p)).Sublist
      (((firstRange p.ranges).flatMap
        (fun fv => (cartesian (p.ranges.drop 1)).map (fun u => fv :: u))).filter
        (specAccept p)) := by
    intro i
    refine List.Sublist.filter _ ?_
    exact sublist_flatMap _ ((List.take_sublist _ _).trans (List.drop_sublist _ _))
  have hlen_i : ∀ i : ℕ,
      ((((workerSlice (firstRange p.ranges) (chunkSize (firstRange p.ranges).length W)
        i).flatMap (fun fv => (cartesian (p.ranges.drop 1)).map (fun u => fv :: u))).filter
        (specAccept p)).length) ≤ p.maxResults :=
    fun i => le_trans (hsub i).length_le hcap
  have hjoin : (List.range W).flatMap
      (fun i => workerSlice (firstRange p.ranges)
        (chunkSize (firstRange p.ranges).length W) i) = firstRange p.ranges :=
    chunks_join W (chunkSize (firstRange p.ranges).length W) (firstRange p.ranges)
      (ceil_chunk_covers (firstRange p.ranges).length W hW1)
  calc (List.range W).flatMap (fun i =>
        emittedRows (runWorker { p with firstValues := (workerSlice (firstRange p.ranges)
          (chunkSize (firstRange p.ranges).length W) i) } false))
      = (List.range W).flatMap (fun i =>
          ((workerSlice (firstRange p.ranges) (chunkSize (firstRange p.ranges).length W)
            i).flatMap (fun fv => (cartesian (p.ranges.drop 1)).map (fun u => fv :: u))).filter
          (specAccept p)) := by
        congr 1
        funext i
        rw [hrun, List.take_of_length_le (hlen_i i)]
    _ = (((List.range W).flatMap (fun i =>
          workerSlice (firstRange p.ranges) (chunkSize (firstRange p.ranges).length W)
            i)).flatMap (fun fv => (cartesian (p.ranges.drop 1)).map (fun u => fv :: u))).filter
          (specAccept p) := by
        rw [List.flatMap_assoc, List.filter_flatMap]
    _ = ((firstRange p.ranges).flatMap
          (fun fv => (cartesian (p.ranges.drop 1)).map (fun u => fv :: u))).filter
          (specAccept p) := by
        rw [hjoin]
    _ = emittedRows (runWorker { p with firstValues := firstRange p.ranges } false) := by
        rw [hrun, List.take_of_length_le hcap]

/-- Witness for C2 on `samplePayload` with two workers: slices `[0, 0.5]`
and `[1]` together emit exactly the single-worker rows. -/
theorem partition_union_eq_single_worker_witness :
    (List.range 2).flatMap (fun i =>
      emittedRows (runWorker { samplePayload with firstValues :=
        (workerSlice (firstRange samplePayload.ranges)
          (chunkSize (firstRange samplePayload.ranges).length 2) i) } false)) =
    emittedRows (runWorker { samplePayload with
      firstValues := firstRange samplePayload.ranges } false) :=
  partition_union_eq_single_worker samplePayload 2 (by decide)
    (by with_unfolding_all decide) (by with_unfolding_all decide)
    (by with_unfolding_all decide) (by with_unfolding_all decide)
